import Mathlib

/-!
Verification development for the Deep Sea Adventure engine
(github.com/bubblyworld/deep-sea-adventure).

The Go sources are embedded shallowly: structs become structures, slices
become lists, `int` becomes `Int`, pointers become values (a `*TreasureStack`
tile field becomes `Option TreasureStack`, and a pointer written into a slice
is modelled by the value it points to at the time of the write), and fallible
methods return `Except String _` or pair their result with `Option String`.
Go's bounded loops are translated with an explicit, provably sufficient fuel.
Randomness (`rand.Intn`) is modelled by an explicit stream of choices, and
`float64` arithmetic over the dyadic constants 1.5/5.5/9.5/13.5 is modelled
exactly in `ℚ`.
-/

/-- TreasureType from state.go: four ranks of treasure. -/
inductive TreasureType where
  | One
  | Two
  | Three
  | Four
deriving DecidableEq, Repr

/-- Treasure from state.go: a rank together with an integer value.
The Go field names `Type`/`Value` collide with Lean keywords and are
written `ttype`/`value`. -/
structure Treasure where
  ttype : TreasureType
  value : Int
deriving DecidableEq, Repr

/-- TreasureStack from state.go: an ordered sequence of treasures. -/
abbrev TreasureStack := List Treasure

/-- TileType from state.go. -/
inductive TileType where
  | submarine
  | treasure
  | empty
deriving DecidableEq, Repr

/-- Tile from state.go. The Go `Treasure *TreasureStack` pointer
(non-nil iff the type is treasure) is modelled as an `Option`. -/
structure Tile where
  ttype : TileType
  treasure : Option TreasureStack
deriving DecidableEq, Repr

/-- Player from state.go. -/
structure Player where
  Position : Int
  TurnedAround : Bool
  HeldTreasure : List TreasureStack
  StashedTreasure : List TreasureStack
deriving DecidableEq, Repr, Inhabited

/-- Modelled from the spec: the Stage enumeration
(Roll | PickUp | Drop | Turn | EndOfGame). Its Go declaration (the
`StageRoll`, ... constants of the state package) is not among the
provided sources; the spec fixes the five control states. -/
inductive Stage where
  | Roll
  | PickUp
  | Drop
  | Turn
  | EndOfGame
deriving DecidableEq, Repr

/-- Modelled from the spec: the Decision type. The Go declaration (a
bit-packed integer with an embedded value field and yes/no flag bits,
not among the provided sources) is described by the spec's design note
as mapping cleanly to the tagged union
Roll(int) | PickUp(bool) | Drop(int,bool) | Turn(bool)
with no loss of behavior, which is what we use. -/
inductive Decision where
  | Roll (v : Int)
  | PickUp (b : Bool)
  | Drop (i : Int) (b : Bool)
  | Turn (b : Bool)
deriving DecidableEq, Repr

/-- Modelled from the spec: `Decision.Value()`, the embedded integer payload
(dice value or drop index). -/
def Decision.value : Decision → Int
  | .Roll v => v
  | .PickUp _ => 0
  | .Drop i _ => i
  | .Turn _ => 0

/-- Modelled from the spec: the Go test `d & decisionPickUpYes != 0`. -/
def Decision.pickUpYes : Decision → Bool
  | .PickUp b => b
  | _ => false

/-- Modelled from the spec: the Go test `d & decisionDropYes != 0`. -/
def Decision.dropYes : Decision → Bool
  | .Drop _ b => b
  | _ => false

/-- Modelled from the spec: the Go test `d & decisionTurnYes != 0`. -/
def Decision.turnYes : Decision → Bool
  | .Turn b => b
  | _ => false

/-- The mutable core of standardState (standard.go): every field except the
undo history. Snapshots pushed by Do never carry a history themselves
(clone nils it out), so the history can live one level up. -/
structure StateCore where
  air : Int
  round : Int
  stage : Stage
  curPlayer : Nat
  players : List Player
  tiles : List Tile
deriving DecidableEq, Repr

/-- standardState from standard.go: the core fields plus the undo
history. `clone` copies every field by value except the history, so each
history entry is a bare `StateCore`. -/
structure standardState where
  core : StateCore
  history : List StateCore
deriving DecidableEq, Repr

/-- Bounds check of standardState.inBounds, abstracted over the board
length so that validation visibly depends on the board only through it. -/
def inBoundsLen (len : Nat) (pos : Int) : Bool :=
  decide (0 ≤ pos) && decide (pos < (len : Int))

/-- standardState.inBounds from standard.go. -/
def inBounds (s : StateCore) (pos : Int) : Bool :=
  inBoundsLen s.tiles.length pos

/-- Loop of standardState.validate: walks the players, accumulating the
non-submarine positions seen so far (the Go map `pm`). -/
def validateGen (len : Nat) : List Player → List Int → Bool
  | [], _ => true
  | p :: rest, pm =>
    if ¬ inBoundsLen len p.Position then false
    else if p.Position == 0 then validateGen len rest pm
    else if pm.contains p.Position then false
    else validateGen len rest (p.Position :: pm)

/-- standardState.validate from standard.go, as the boolean
"no error": every player in bounds, no two players sharing a
non-submarine tile. -/
def validate (s : StateCore) : Bool :=
  validateGen s.tiles.length s.players []

/-- Reading `ss.tiles[pos]`. Go would panic out of range; the validation
invariant keeps every used index in range, so the default is never
reached from validated states. -/
def tileAt (s : StateCore) (pos : Int) : Tile :=
  s.tiles.getD pos.toNat ⟨TileType.empty, none⟩

/-- isFinished from standard.go. -/
def isFinished (p : Player) : Bool :=
  p.Position == 0 && p.TurnedAround

/-- standardState.pickup from standard.go. -/
def pickup (s : StateCore) (pi : Nat) : Except String StateCore :=
  if ¬ validate s then .error ("validation error while picking up")
  else
    let p := s.players.getD pi default
    if ¬ ((tileAt s p.Position).ttype == TileType.treasure) then
      .error ("player tried to pick up non-treasure tile")
    else
      let p1 := { p with HeldTreasure :=
        p.HeldTreasure ++ [(tileAt s p.Position).treasure.getD []] }
      .ok { s with
        players := s.players.set pi p1,
        tiles := s.tiles.set p.Position.toNat ⟨TileType.empty, none⟩ }

/-- standardState.drop from standard.go. The final Go assignment is
`p.HeldTreasure = append(p.HeldTreasure[:index], p.HeldTreasure[:index+1]...)`,
i.e. take index ++ take (index+1) — translated verbatim; that is the
value the live player's slice reads afterwards whether or not the append
reuses the backing array. Two aliasing effects of the Go code are not
carried by this value model: the tile stores the pointer
`&p.HeldTreasure[index]` into the backing array, so after the in-place
memmove (reuse is forced when 2·index+1 ≤ |held|, since capacity ≥
length) the tile holds held[0] rather than held[index] whenever
index ≥ 1 — here the tile stores the value held[index] read at write
time, which agrees with Go at index 0, where claim C2 is evaluated; and
the snapshot pushed by Do re-reads the same rewritten array — that
effect is modelled by snapshotHeldAfterDrop below and settled under
claim C1. -/
def drop (s : StateCore) (pi : Nat) (index : Int) : Except String StateCore :=
  if ¬ validate s then .error ("validation error while dropping")
  else
    let p := s.players.getD pi default
    if index < 0 ∨ (p.HeldTreasure.length : Int) ≤ index then
      .error ("player tried to drop non-existent treasure")
    else if ¬ ((tileAt s p.Position).ttype == TileType.empty) then
      .error ("player tried to drop on non-empty tile")
    else
      let i := index.toNat
      let p1 := { p with HeldTreasure :=
        p.HeldTreasure.take i ++ p.HeldTreasure.take (i + 1) }
      .ok { s with
        tiles := s.tiles.set p.Position.toNat
          ⟨TileType.treasure, some (p.HeldTreasure.getD i [])⟩,
        players := s.players.set pi p1 }

/-- The player-hopping inner loop of move: advance past occupied squares
while in bounds. The fuel is the board length, which bounds the number
of in-bounds squares the loop can traverse. -/
def hop (inB : Int → Bool) (sm : Int → Bool) (skip : Int) :
    Nat → Int → Int
  | 0, pos => pos
  | fuel + 1, pos =>
    if inB pos && sm pos then hop inB sm skip fuel (pos + skip) else pos

/-- Outer loop of standardState.move: one iteration per space. `sm` is the
occupancy map built once at entry from all players (squares other than
the submarine that hold a player). -/
def moveLoop (pi : Nat) (sm : Int → Bool) (skip : Int) :
    Nat → StateCore → StateCore
  | 0, s => s
  | n + 1, s =>
    let p := s.players.getD pi default
    let newPos := p.Position + skip
    if ¬ inBounds s newPos then s
    else
      let newPos := hop (fun q => inBounds s q) sm skip s.tiles.length newPos
      if ¬ inBounds s newPos ∨ sm newPos then s
      else moveLoop pi sm skip n
        { s with players := s.players.set pi { p with Position := newPos } }

/-- standardState.move from standard.go: moves player `pi` the given
number of spaces, hopping over occupied squares, stopping at either end
of the board (no bounceback). -/
def move (s : StateCore) (pi : Nat) (spaces : Int) : Except String StateCore :=
  if ¬ validate s then .error ("validation error while moving")
  else
    let sm : Int → Bool := fun q =>
      s.players.any (fun pl => pl.Position != 0 && pl.Position == q)
    let skip : Int := if (s.players.getD pi default).TurnedAround then -1 else 1
    .ok (moveLoop pi sm skip spaces.natAbs s)

/-- Loop of the stack function from standard.go: accumulate treasures into
`cur`, flushing `cur` every time it reaches `size`. -/
def stackGo (size : Nat) : List Treasure → TreasureStack → List TreasureStack
  | [], cur => if 0 < cur.length then [cur] else []
  | t :: rest, cur =>
    let cur1 := cur ++ [t]
    if size ≤ cur1.length then cur1 :: stackGo size rest []
    else stackGo size rest cur1

/-- stack from standard.go: re-pack a pooled treasure list into stacks of
`size` (the final stack keeps any remainder). -/
def stack (tl : List Treasure) (size : Nat) : List TreasureStack :=
  stackGo size tl []

/-- standardState.endRound from standard.go: reset all players to the
submarine, stash survivors' held stacks, pool the dead players' held
treasure, compact empty tiles out of the board and append the pooled
treasure as new stacks of three. -/
def endRound (s : StateCore) : Except String StateCore :=
  if ¬ validate s then .error ("validation error while ending turn")
  else
    let tl : List Treasure := s.players.foldl
      (fun acc p => if p.Position == 0 then acc else acc ++ p.HeldTreasure.flatten) []
    let players := s.players.map (fun p =>
      { p with
        Position := 0,
        TurnedAround := false,
        HeldTreasure := [],
        StashedTreasure :=
          if p.Position == 0 then p.StashedTreasure ++ p.HeldTreasure
          else p.StashedTreasure })
    let tiles := s.tiles.filter (fun t => t.ttype != TileType.empty)
    let tiles := tiles ++ (stack tl 3).map
      (fun ts => ⟨TileType.treasure, some ts⟩)
    .ok { s with
      players := players, tiles := tiles,
      round := s.round + 1, air := 25, curPlayer := 0 }

/-- Loop of toNextTurn: cycle from curPlayer+1 looking for a player who has
not finished their round, stopping on wraparound. The fuel (player count)
bounds the number of loop iterations the Go `for` can make. -/
def nextActiveGo (ps : List Player) (cur : Nat) : Nat → Nat → Nat
  | 0, np => np
  | fuel + 1, np =>
    if np == cur then np
    else if ¬ isFinished (ps.getD np default) then np
    else nextActiveGo ps cur fuel ((np + 1) % ps.length)

/-- standardState.toNextTurn from standard.go. Returns the error (if any)
paired with the state as mutated so far, matching the Go method's
in-place mutation followed by an error return. -/
def toNextTurn (s : StateCore) : Option String × StateCore :=
  let np := nextActiveGo s.players s.curPlayer s.players.length
    ((s.curPlayer + 1) % s.players.length)
  let s := { s with curPlayer := np }
  let cp := s.players.getD np default
  if s.air ≤ 0 || isFinished cp then
    match endRound s with
    | .error e => (some e, s)
    | .ok s1 =>
      if 3 < s1.round then (none, { s1 with stage := Stage.EndOfGame })
      else (none, { s1 with stage := Stage.Roll })
  else
    if 0 < cp.Position ∧ ¬ cp.TurnedAround then (none, { s with stage := Stage.Turn })
    else (none, { s with stage := Stage.Roll })

/-- standardState.ValidDecisions from standard.go. -/
def ValidDecisions (s : StateCore) : List Decision :=
  match s.stage with
  | .Roll => (List.range' 2 5).map (fun i : Nat => Decision.Roll (i : Int))
  | .PickUp => [Decision.PickUp true, Decision.PickUp false]
  | .Drop =>
    Decision.Drop 0 false ::
      (List.range (s.players.getD s.curPlayer default).HeldTreasure.length).map
        (fun i : Nat => Decision.Drop (i : Int) true)
  | .Turn =>
    if (s.players.getD s.curPlayer default).Position == (s.tiles.length : Int) - 1
    then [Decision.Turn true]
    else [Decision.Turn true, Decision.Turn false]
  | .EndOfGame => []

/-- Core of standardState.Do: the full decision transition on the core
fields (the unconditional history push is layered on top in Do). On
error the state is returned as mutated so far, matching the Go method. -/
def DoCore (s : StateCore) (d : Decision) : Option String × StateCore :=
  if ¬ (d ∈ ValidDecisions s) then
    (some ("attempted to do invalid decision"), s)
  else
    match s.stage with
    | .Roll =>
      let cp := s.players.getD s.curPlayer default
      let moves : Int :=
        if d.value - (cp.HeldTreasure.length : Int) < 0 then 0
        else d.value - (cp.HeldTreasure.length : Int)
      let s1 := { s with air :=
        if s.air - (cp.HeldTreasure.length : Int) < 0 then 0
        else s.air - (cp.HeldTreasure.length : Int) }
      match move s1 s.curPlayer moves with
      | .error e => (some e, s1)
      | .ok s2 =>
        let cp2 := s2.players.getD s.curPlayer default
        if (tileAt s2 cp2.Position).ttype = TileType.treasure then
          (none, { s2 with stage := Stage.PickUp })
        else if (tileAt s2 cp2.Position).ttype = TileType.empty
            ∧ 0 < cp2.HeldTreasure.length then
          (none, { s2 with stage := Stage.Drop })
        else toNextTurn s2
    | .PickUp =>
      if d.pickUpYes then
        match pickup s s.curPlayer with
        | .error e => (some e, s)
        | .ok s1 => toNextTurn s1
      else toNextTurn s
    | .Drop =>
      if d.dropYes then
        match drop s s.curPlayer d.value with
        | .error e => (some e, s)
        | .ok s1 => toNextTurn s1
      else toNextTurn s
    | .Turn =>
      let cp := s.players.getD s.curPlayer default
      let s1 :=
        if d.turnYes then
          { s with players := s.players.set s.curPlayer { cp with TurnedAround := true } }
        else s
      (none, { s1 with stage := Stage.Roll })
    | .EndOfGame =>
      (some ("invalid decision for game stage in standardState"), s)

/-- standardState.Do from standard.go: push a copy of the pre-call core
onto the history (this happens before the decision is checked), then
apply the transition. The error (if any) is returned alongside the state
as Go leaves it. The pushed entry is modelled as an immutable value of
the pre-call core; in Go, clone (lines 477-496) copies each Player
struct by value, sharing the heldTreasure backing arrays with the live
state, so a later in-place mutation in the same call can rewrite entries
the snapshot still sees — drop's append does exactly that (see
snapshotHeldAfterDrop and claim C1). On the error path nothing is
mutated after the push, so there the value model is exact. -/
def Do (ss : standardState) (d : Decision) : Option String × standardState :=
  let r := DoCore ss.core d
  (r.fst, ⟨r.snd, ss.history ++ [ss.core]⟩)

/-- standardState.Undo from standard.go: replace the state with the most
recent snapshot and pop it. -/
def Undo (ss : standardState) : Except String standardState :=
  match ss.history.getLast? with
  | none => .error ("attempted to undo a state with no history")
  | some c => .ok ⟨c, ss.history.dropLast⟩

/-- What the heldTreasure slice of the snapshot pushed by Do reads after
drop's `append(p.HeldTreasure[:index], p.HeldTreasure[:index+1]...)`.
clone copies each Player struct by value, so the snapshot's slice header
(length |held|) shares its backing array with the live player's. The
append's result has length 2·index+1; when 2·index+1 ≤ |held| the
existing capacity suffices, Go is required to reuse the backing array,
and the copy writes held[0..index] onto positions index..2·index — so
the snapshot re-reads take index ++ take (index+1) ++ drop (2·index+1)
in place of the pre-mutation list. When 2·index+1 exceeds the length,
reuse depends on the slice's spare capacity; with capacity equal to the
length a fresh array is allocated and the snapshot is unaffected — the
divergence below only uses the guaranteed in-place branch. -/
def snapshotHeldAfterDrop (held : List TreasureStack) (index : Nat) :
    List TreasureStack :=
  if 2 * index + 1 ≤ held.length then
    held.take index ++ held.take (index + 1) ++ held.drop (2 * index + 1)
  else held

/-- State from state.go (the package-level State struct, distinct from
standardState). -/
structure State where
  Air : Int
  Round : Int
  Players : List Player
  Tiles : List Tile
deriving DecidableEq, Repr

/-- State.inBounds from state.go. -/
def State.inBounds (gs : State) (pos : Int) : Bool :=
  inBoundsLen gs.Tiles.length pos

/-- State.Validate from state.go: textually the same check as
standardState.validate. -/
def State.Validate (gs : State) : Bool :=
  validateGen gs.Tiles.length gs.Players []

/-- Outer loop of State.Move from state.go. Unlike standardState.move,
this loop has no bounds check before or after the hop: the only early
exit is on an occupied target square. -/
def StateMoveLoop (pi : Nat) (sm : Int → Bool) (skip : Int) :
    Nat → State → State
  | 0, gs => gs
  | n + 1, gs =>
    let p := gs.Players.getD pi default
    let newPos := hop (fun q => gs.inBounds q) sm skip gs.Tiles.length
      (p.Position + skip)
    if sm newPos then gs
    else StateMoveLoop pi sm skip n
      { gs with Players := gs.Players.set pi { p with Position := newPos } }

/-- State.Move from state.go: moves player `pi` the given number of
spaces, hopping over occupied squares. Its doc comment promises that a
player who reaches the end of the map stops there, but the loop never
checks bounds before assigning the new position. -/
def State.Move (gs : State) (pi : Nat) (spaces : Int) : Except String State :=
  if ¬ gs.Validate then .error ("validation error while moving")
  else
    let sm : Int → Bool := fun q =>
      gs.Players.any (fun pl => pl.Position != 0 && pl.Position == q)
    let skip : Int := if (gs.Players.getD pi default).TurnedAround then -1 else 1
    .ok (StateMoveLoop pi sm skip spaces.natAbs gs)

/-- expectedUtility from eval.go: the fixed expected value of each
treasure rank, as an exact rational (the Go float64 constants 1.5, 5.5,
9.5, 13.5 are dyadic, so this is exact). -/
def expectedUtility : TreasureType → ℚ
  | .One => 3 / 2
  | .Two => 11 / 2
  | .Three => 19 / 2
  | .Four => 27 / 2

/-- sum from eval.go: total expected utility of a list of treasure
stacks. Note that it sums `expectedUtility[t.Type]`, not `t.Value`. -/
def sum (tsl : List TreasureStack) : ℚ :=
  tsl.foldl (fun acc ts => ts.foldl (fun a t => a + expectedUtility t.ttype) acc) 0

/-- rawUtility from eval.go. -/
def rawUtility (s : StateCore) (player : Nat) : ℚ :=
  sum (s.players.getD player default).StashedTreasure

/-- diceProbability from eval.go: probability of each two-dice sum. The
Go map lookup for any other key yields nil (a crash on use); that case is
unreachable because Roll decisions always carry 2..6. -/
def diceProbability : Int → ℚ
  | 2 => 1 / 9
  | 3 => 2 / 9
  | 4 => 3 / 9
  | 5 => 2 / 9
  | 6 => 1 / 9
  | _ => 0

/-- Result of one Monte Carlo playout. `util` and `prob` are the two
values the Go montecarlo returns; `steps` (each state at a decision
point together with the decision taken) and `final` (the state the
playout stopped in) are ghost observations used to state path
properties; `rest` is the unconsumed part of the choice stream. -/
structure McResult where
  util : ℚ
  prob : ℚ
  steps : List (StateCore × Decision)
  final : StateCore
  rest : List Nat
deriving Repr

/-- montecarlo from eval.go: one random playout. `rand.Intn(len(vdl))` is
modelled by consuming one element of the choice stream and reducing it
mod the number of valid decisions; the Go recursion (which always
terminates a recursion step by Do/Undo on one shared state) is modelled
purely by recursing on the post-Do state, with fuel standing in for the
unbounded recursion depth. -/
def montecarlo (player : Nat) : Nat → List Nat → standardState →
    Except String McResult
  | 0, _, _ => .error ("montecarlo: out of fuel")
  | fuel + 1, cs, ss =>
    if ss.core.stage == Stage.EndOfGame then
      .ok ⟨rawUtility ss.core player, 1, [], ss.core, cs⟩
    else
      let vdl := ValidDecisions ss.core
      let c := cs.headD 0
      let vd := vdl.getD (c % vdl.length) (Decision.Roll 0)
      let prob : ℚ :=
        if ss.core.stage == Stage.Roll then diceProbability vd.value
        else 1 / (vdl.length : ℚ)
      match Do ss vd with
      | (some e, _) => .error e
      | (none, ss1) =>
        match montecarlo player fuel cs.tail ss1 with
        | .error e => .error e
        | .ok r =>
          .ok ⟨r.util, prob * r.prob, (ss.core, vd) :: r.steps, r.final, r.rest⟩

/-- Iteration loop of Estimate: run the given number of playouts from the
same state, threading the choice stream, collecting (utility,
probability) pairs. -/
def estimateLoop (player fuel : Nat) : Nat → List Nat → standardState →
    Except String (List (ℚ × ℚ))
  | 0, _, _ => .ok []
  | n + 1, cs, ss =>
    match montecarlo player fuel cs ss with
    | .error e => .error e
    | .ok r =>
      match estimateLoop player fuel n r.rest ss with
      | .error e => .error e
      | .ok ups => .ok ((r.util, r.prob) :: ups)

/-- Estimate from eval.go: exact utility if the game (or the round
horizon) has ended, otherwise the importance-weighted average of the
playouts, computed in exact rationals. -/
def Estimate (fuel : Nat) (cs : List Nat) (ss : standardState)
    (player iterations : Nat) (lastRound : Int) : Except String ℚ :=
  if lastRound ≤ ss.core.round || ss.core.stage == Stage.EndOfGame then
    .ok (rawUtility ss.core player)
  else
    match estimateLoop player fuel iterations cs ss with
    | .error e => .error e
    | .ok ups =>
      let psum : ℚ := (ups.map (fun up => up.snd)).sum
      .ok ((ups.map (fun up => up.snd / psum * up.fst)).sum)

/-- Modelled from the spec: "the exact sum of the values of that player's
stashed treasure" — the per-instance value sum the spec says Estimate
returns on an ended game. Stated from the spec's words for comparison
with the code's rawUtility. -/
def stashedValueSum (s : StateCore) (player : Nat) : Int :=
  (((s.players.getD player default).StashedTreasure).map
    (fun ts => (ts.map (fun t => t.value)).sum)).sum

/-- Semantic reading of validate: every player in bounds, and no two
distinct players share a position other than the submarine. -/
def ValidSem (len : Nat) (ps : List Player) : Prop :=
  (∀ p ∈ ps, 0 ≤ p.Position ∧ p.Position < (len : Int)) ∧
  ps.Pairwise (fun a b => a.Position = b.Position → a.Position = 0)

/-- All players other than `pi` agree between the two lists. -/
def OthersEq (pi : Nat) (ps0 ps : List Player) : Prop :=
  ps.length = ps0.length ∧
  ∀ j, j ≠ pi → ps.getD j default = ps0.getD j default

/-- Well-formedness of a reachable core state: the validation invariant
holds, the current player index is in range, and the stage is consistent
with the current player's tile (PickUp is only ever entered on a
treasure tile, Drop only on an empty tile). -/
def WF (s : StateCore) : Bool :=
  validate s && decide (s.curPlayer < s.players.length) &&
  (match s.stage with
   | .PickUp =>
     (tileAt s (s.players.getD s.curPlayer default).Position).ttype
       == TileType.treasure
   | .Drop =>
     (tileAt s (s.players.getD s.curPlayer default).Position).ttype
       == TileType.empty
   | _ => true)

/-- The round-end resolution contract (claim C4): on success every player
is reset to the submarine facing down with empty hands, survivors bank
their held stacks, the round advances, air refills, and the board is the
empty-compacted original followed by the dead players' pooled treasure
re-packed in stacks of three (a shorter final stack keeping any
remainder). -/
def C4Concl (s : StateCore) : Prop :=
  match endRound s with
  | .error _ => False
  | .ok s1 =>
    let pooled : List Treasure :=
      ((s.players.filter (fun p => p.Position != 0)).map
        (fun p => p.HeldTreasure.flatten)).flatten
    s1.air = 25 ∧ s1.round = s.round + 1 ∧
    s1.players.length = s.players.length ∧
    (∀ i, i < s.players.length →
      (s1.players.getD i default).Position = 0 ∧
      (s1.players.getD i default).TurnedAround = false ∧
      (s1.players.getD i default).HeldTreasure = [] ∧
      (s1.players.getD i default).StashedTreasure =
        (if (s.players.getD i default).Position = 0
         then (s.players.getD i default).StashedTreasure
           ++ (s.players.getD i default).HeldTreasure
         else (s.players.getD i default).StashedTreasure)) ∧
    s1.tiles = s.tiles.filter (fun t => t.ttype != TileType.empty)
      ++ (stack pooled 3).map (fun ts => ⟨TileType.treasure, some ts⟩) ∧
    (stack pooled 3).flatten = pooled ∧
    (∀ ts ∈ (stack pooled 3).dropLast, ts.length = 3) ∧
    (∀ ts ∈ stack pooled 3, 0 < ts.length ∧ ts.length ≤ 3)

/-- The Roll transition contract (claim C5): applying a legal dice value v
floors air at max(0, air − held), invokes the move resolution with
max(0, v − held) spaces, and then dispatches on the landed tile —
PickUp on treasure, Drop on empty with at least one held stack, and the
advance-turn transition otherwise — while succeeding and pushing
exactly the pre-call snapshot. -/
def C5Concl (ss : standardState) (v : Int) : Prop :=
  let s := ss.core
  let cp := s.players.getD s.curPlayer default
  let s1 := { s with air := max (s.air - (cp.HeldTreasure.length : Int)) 0 }
  match move s1 s.curPlayer (max (v - (cp.HeldTreasure.length : Int)) 0) with
  | .error _ => False
  | .ok s2 =>
    let cp2 := s2.players.getD s.curPlayer default
    Do ss (Decision.Roll v) =
      (none,
       ⟨(if (tileAt s2 cp2.Position).ttype = TileType.treasure then
           { s2 with stage := Stage.PickUp }
         else if (tileAt s2 cp2.Position).ttype = TileType.empty
             ∧ 0 < cp2.HeldTreasure.length then
           { s2 with stage := Stage.Drop }
         else (toNextTurn s2).snd),
        ss.history ++ [ss.core]⟩)

/-- The probability tag montecarlo attaches to one step: the true dice
probability at a Roll stage, and one over the number of legal decisions
at every other stage. -/
def stepTag (sd : StateCore × Decision) : ℚ :=
  if sd.fst.stage == Stage.Roll then diceProbability sd.snd.value
  else 1 / ((ValidDecisions sd.fst).length : ℚ)

/-- Product of the probability tags along a playout path. -/
def pathProb (steps : List (StateCore × Decision)) : ℚ :=
  (steps.map stepTag).prod

/-- Product of only the dice probabilities of the Roll decisions along a
playout path (the quantity claim C8 says the playout returns). -/
def diceOnlyProb (steps : List (StateCore × Decision)) : ℚ :=
  steps.foldl
    (fun acc sd =>
      if sd.fst.stage == Stage.Roll then acc * diceProbability sd.snd.value
      else acc) 1

/-- Checks whether a playout of montecarlo visits a state whose round
counter exceeds `r0`. -/
def mcVisitsRoundAbove (player fuel : Nat) (cs : List Nat)
    (ss : standardState) (r0 : Int) : Bool :=
  match montecarlo player fuel cs ss with
  | .error _ => false
  | .ok r =>
    r.steps.any (fun sd => decide (r0 < sd.fst.round))
      || decide (r0 < r.final.round)

/-- Checks whether a playout of montecarlo returns a total probability
different from the product of its dice probabilities alone. -/
def mcProbNotDiceOnly (player fuel : Nat) (cs : List Nat)
    (ss : standardState) : Bool :=
  match montecarlo player fuel cs ss with
  | .error _ => false
  | .ok r => decide (r.prob ≠ diceOnlyProb r.steps)

/-- Every successful playout stops exactly at the end of the game: its
terminal state is EndOfGame and no decision is taken in an EndOfGame
state. -/
def stopsAtEnd (player fuel : Nat) (cs : List Nat) (ss : standardState) : Bool :=
  match montecarlo player fuel cs ss with
  | .error _ => true
  | .ok r =>
    decide (r.final.stage = Stage.EndOfGame)
      && r.steps.all (fun sd => decide (sd.fst.stage ≠ Stage.EndOfGame))

/-- Every successful playout's probability is the product of its per-step
tags (dice probability at Roll, uniform probability elsewhere). -/
def probMatchesTags (player fuel : Nat) (cs : List Nat)
    (ss : standardState) : Bool :=
  match montecarlo player fuel cs ss with
  | .error _ => true
  | .ok r => decide (r.prob = pathProb r.steps)

/-- A small Roll-stage state used as a concrete input: one player on the
submarine holding one stack, one unit of air left in round 1, and a
two-tile board. Every claim's concrete input below is reachable-shaped
(it satisfies WF). -/
def mcCore : StateCore :=
  { air := 1, round := 1, stage := Stage.Roll, curPlayer := 0,
    players := [{ Position := 0, TurnedAround := false,
                  HeldTreasure := [[⟨TreasureType.One, 1⟩]],
                  StashedTreasure := [] }],
    tiles := [⟨TileType.submarine, none⟩,
              ⟨TileType.treasure, some [⟨TreasureType.One, 2⟩]⟩] }

/-- The state mcCore with an empty undo history. -/
def mcSS : standardState := ⟨mcCore, []⟩

/-- A choice stream that drives a full playout from mcSS to the end of
the game (it crosses the end of rounds 1, 2 and 3 on the way). -/
def mcChoices : List Nat := [0, 1, 4, 1, 0, 0, 4, 1, 0, 0]

/-- A Drop-stage state: one player standing on the empty tile 1 holding
exactly one stack. -/
def dropCore : StateCore :=
  { air := 25, round := 1, stage := Stage.Drop, curPlayer := 0,
    players := [{ Position := 1, TurnedAround := false,
                  HeldTreasure := [[⟨TreasureType.Two, 5⟩]],
                  StashedTreasure := [] }],
    tiles := [⟨TileType.submarine, none⟩, ⟨TileType.empty, none⟩] }

/-- The state dropCore with an empty undo history. -/
def dropSS : standardState := ⟨dropCore, []⟩

/-- A Drop-stage state whose current player holds three stacks — the
shape on which drop's in-place append is guaranteed to overwrite backing
array entries that the snapshot pushed by Do still sees. -/
def dropCore3 : StateCore :=
  { air := 25, round := 1, stage := Stage.Drop, curPlayer := 0,
    players := [{ Position := 1, TurnedAround := false,
                  HeldTreasure := [[⟨TreasureType.One, 1⟩],
                                   [⟨TreasureType.Two, 4⟩],
                                   [⟨TreasureType.Three, 8⟩]],
                  StashedTreasure := [] }],
    tiles := [⟨TileType.submarine, none⟩, ⟨TileType.empty, none⟩] }

/-- A round-end input: player 0 survived on the submarine holding one
stack, player 1 is stranded on tile 2 holding two stacks of one and two
treasures. -/
def erCore : StateCore :=
  { air := 0, round := 1, stage := Stage.Roll, curPlayer := 1,
    players := [{ Position := 0, TurnedAround := true,
                  HeldTreasure := [[⟨TreasureType.One, 1⟩]],
                  StashedTreasure := [] },
                { Position := 2, TurnedAround := false,
                  HeldTreasure := [[⟨TreasureType.Three, 8⟩],
                                   [⟨TreasureType.Four, 12⟩, ⟨TreasureType.Four, 13⟩]],
                  StashedTreasure := [[⟨TreasureType.Two, 4⟩]] }],
    tiles := [⟨TileType.submarine, none⟩, ⟨TileType.empty, none⟩,
              ⟨TileType.treasure, some [⟨TreasureType.Two, 6⟩]⟩] }

/-- An ended game: round counter past 3, stage EndOfGame, the player's
stash holding a single rank-one treasure of value 3. -/
def endCore : StateCore :=
  { air := 25, round := 4, stage := Stage.EndOfGame, curPlayer := 0,
    players := [{ Position := 0, TurnedAround := false,
                  HeldTreasure := [],
                  StashedTreasure := [[⟨TreasureType.One, 3⟩]] }],
    tiles := [⟨TileType.submarine, none⟩] }

/-- The state endCore with an empty undo history. -/
def endSS : standardState := ⟨endCore, []⟩

/-- A 33-tile board (submarine plus 32 treasure tiles, the standard
initial layout size) for exercising State.Move from state.go. -/
def gsTiles : List Tile :=
  ⟨TileType.submarine, none⟩ ::
    List.replicate 32 ⟨TileType.treasure, some [⟨TreasureType.One, 0⟩]⟩

/-- state.go State with a single player on the submarine. -/
def gsForward : State :=
  { Air := 25, Round := 1,
    Players := [{ Position := 0, TurnedAround := false,
                  HeldTreasure := [], StashedTreasure := [] }],
    Tiles := gsTiles }

/-- state.go State with a single player on tile 2, turned around. -/
def gsBackward : State :=
  { Air := 25, Round := 1,
    Players := [{ Position := 2, TurnedAround := true,
                  HeldTreasure := [], StashedTreasure := [] }],
    Tiles := gsTiles }

theorem getD_set_ne {α : Type} (l : List α) (i j : Nat) (a d : α)
    (h : i ≠ j) : (l.set i a).getD j d = l.getD j d := by
  simp [List.getD, List.getElem?_set_ne h]

theorem getD_set_self {α : Type} (l : List α) (i : Nat) (a d : α)
    (h : i < l.length) : (l.set i a).getD i d = a := by
  simp [List.getD, List.getElem?_set_eq_of_lt a h]

theorem getD_map_lt {α β : Type} (f : α → β) (l : List α) (i : Nat)
    (h : i < l.length) (d : β) (d2 : α) :
    (l.map f).getD i d = f (l.getD i d2) := by
  rw [List.getD_eq_getElem _ _ (by simpa using h), List.getD_eq_getElem _ _ h,
    List.getElem_map]

theorem inBoundsLen_iff (len : Nat) (pos : Int) :
    inBoundsLen len pos = true ↔ 0 ≤ pos ∧ pos < (len : Int) := by
  simp [inBoundsLen]

theorem contains_int_iff (pm : List Int) (x : Int) :
    pm.contains x = true ↔ x ∈ pm := by
  simp [List.contains_iff_exists_mem_beq, beq_iff_eq]

theorem validateGen_iff (len : Nat) (ps : List Player) :
    ∀ pm : List Int, validateGen len ps pm = true ↔
      ((∀ p ∈ ps, 0 ≤ p.Position ∧ p.Position < (len : Int)) ∧
       (∀ p ∈ ps, p.Position ≠ 0 → p.Position ∉ pm) ∧
       ps.Pairwise (fun a b => a.Position = b.Position → a.Position = 0)) := by
  induction ps with
  | nil => intro pm; simp [validateGen]
  | cons p rest ih =>
    intro pm
    by_cases hb : inBoundsLen len p.Position = true
    · by_cases hz : p.Position = 0
      · have hzb : (p.Position == 0) = true := by simpa using hz
        rw [validateGen, if_neg (by simp [hb]), if_pos hzb, ih pm]
        constructor
        · rintro ⟨h1, h2, h3⟩
          refine ⟨?_, ?_, ?_⟩
          · intro q hq
            rcases List.mem_cons.mp hq with rfl | hq
            · exact (inBoundsLen_iff len q.Position).mp hb
            · exact h1 q hq
          · intro q hq hqz
            rcases List.mem_cons.mp hq with rfl | hq
            · exact absurd hz hqz
            · exact h2 q hq hqz
          · refine List.pairwise_cons.mpr ⟨?_, h3⟩
            intro b _ hexp
            exact hz
        · rintro ⟨h1, h2, h3⟩
          exact ⟨fun q hq => h1 q (List.mem_cons_of_mem p hq),
                 fun q hq => h2 q (List.mem_cons_of_mem p hq),
                 (List.pairwise_cons.mp h3).2⟩
      · have hzb : (p.Position == 0) = false := by simpa using hz
        by_cases hc : pm.contains p.Position = true
        · rw [validateGen, if_neg (by simp [hb]), hzb]
          simp only [Bool.false_eq_true, if_false, if_pos hc]
          constructor
          · intro hfalse; exact absurd hfalse (by simp)
          · rintro ⟨h1, h2, h3⟩
            exact absurd ((contains_int_iff pm p.Position).mp hc)
              (h2 p (List.mem_cons_self p rest) hz)
        · rw [validateGen, if_neg (by simp [hb]), hzb]
          simp only [Bool.false_eq_true, if_false, if_neg hc]
          rw [ih (p.Position :: pm)]
          constructor
          · rintro ⟨h1, h2, h3⟩
            refine ⟨?_, ?_, ?_⟩
            · intro q hq
              rcases List.mem_cons.mp hq with rfl | hq
              · exact (inBoundsLen_iff len q.Position).mp hb
              · exact h1 q hq
            · intro q hq hqz
              rcases List.mem_cons.mp hq with rfl | hq
              · intro hmem
                exact hc ((contains_int_iff pm q.Position).mpr hmem)
              · intro hmem
                exact h2 q hq hqz (List.mem_cons_of_mem _ hmem)
            · refine List.pairwise_cons.mpr ⟨?_, h3⟩
              intro b hb2 heq
              exact absurd (List.mem_cons_self b.Position pm)
                (heq ▸ h2 b hb2 (heq ▸ hz))
          · rintro ⟨h1, h2, h3⟩
            refine ⟨fun q hq => h1 q (List.mem_cons_of_mem p hq), ?_,
              (List.pairwise_cons.mp h3).2⟩
            intro q hq hqz hmem
            rcases List.mem_cons.mp hmem with heq | hmem
            · have hp0 : p.Position = 0 :=
                (List.pairwise_cons.mp h3).1 q hq heq.symm
              exact hqz (heq.trans hp0)
            · exact h2 q (List.mem_cons_of_mem p hq) hqz hmem
    · rw [validateGen, if_pos (by simp [hb])]
      constructor
      · intro hfalse; exact absurd hfalse (by simp)
      · rintro ⟨h1, _, _⟩
        exact absurd ((inBoundsLen_iff len p.Position).mpr
          (h1 p (List.mem_cons_self p rest))) hb

theorem validate_iff (s : StateCore) :
    validate s = true ↔ ValidSem s.tiles.length s.players := by
  rw [validate, validateGen_iff]
  simp [ValidSem]


theorem ValidSem_set {len : Nat} {ps : List Player} {pi : Nat} {p1 : Player}
    (h : ValidSem len ps)
    (hb : 0 ≤ p1.Position ∧ p1.Position < (len : Int))
    (hne : ∀ j, j < ps.length → j ≠ pi →
      (ps.getD j default).Position = p1.Position → p1.Position = 0) :
    ValidSem len (ps.set pi p1) := by
  obtain ⟨h1, h2⟩ := h
  constructor
  · intro q hq
    rcases List.mem_or_eq_of_mem_set hq with hq | rfl
    · exact h1 q hq
    · exact hb
  · rw [List.pairwise_iff_getElem] at h2 ⊢
    intro i j hi hj hij
    have hi2 : i < ps.length := by simpa using hi
    have hj2 : j < ps.length := by simpa using hj
    rw [List.getElem_set, List.getElem_set]
    by_cases hpi : pi = i
    · subst hpi
      rw [if_pos rfl, if_neg (Nat.ne_of_lt hij)]
      intro heq
      exact hne j hj2 (Nat.ne_of_gt hij)
        (by rw [List.getD_eq_getElem _ _ hj2]; exact heq.symm)
    · rw [if_neg hpi]
      by_cases hpj : pi = j
      · subst hpj
        rw [if_pos rfl]
        intro heq
        have h0 : p1.Position = 0 :=
          hne i hi2 (fun he => hpi he.symm)
            (by rw [List.getD_eq_getElem _ _ hi2]; exact heq)
        exact heq.trans h0
      · rw [if_neg hpj]
        exact h2 i j hi2 hj2 hij

theorem OthersEq_refl (pi : Nat) (ps : List Player) : OthersEq pi ps ps :=
  ⟨rfl, fun _ _ => rfl⟩

theorem OthersEq_set {pi : Nat} {ps0 ps : List Player} (p1 : Player)
    (h : OthersEq pi ps0 ps) : OthersEq pi ps0 (ps.set pi p1) := by
  obtain ⟨hl, ho⟩ := h
  refine ⟨by simpa using hl, ?_⟩
  intro j hj
  rw [getD_set_ne _ _ _ _ _ (fun he => hj he.symm)]
  exact ho j hj

theorem moveLoop_spec (pi : Nat) (sm : Int → Bool) (skip : Int)
    (ps0 : List Player)
    (hsm : ∀ q : Int, sm q = false →
      ∀ pl ∈ ps0, pl.Position ≠ 0 → pl.Position ≠ q) :
    ∀ (n : Nat) (s : StateCore),
      ValidSem s.tiles.length s.players →
      OthersEq pi ps0 s.players →
      ∃ ps1, moveLoop pi sm skip n s = { s with players := ps1 } ∧
        ValidSem s.tiles.length ps1 ∧ OthersEq pi ps0 ps1 := by
  intro n
  induction n with
  | zero =>
    intro s hv ho
    exact ⟨s.players, rfl, hv, ho⟩
  | succ n ih =>
    intro s hv ho
    rw [moveLoop]
    by_cases hin : inBounds s ((s.players.getD pi default).Position + skip) = true
    · rw [if_neg (not_not_intro hin)]
      set newPos := hop (fun q => inBounds s q) sm skip s.tiles.length
        ((s.players.getD pi default).Position + skip) with hnp
      by_cases hstop : ¬ inBounds s newPos = true ∨ sm newPos = true
      · rw [if_pos hstop]
        exact ⟨s.players, rfl, hv, ho⟩
      · rw [if_neg hstop]
        have hin3 : inBounds s newPos = true := not_not.mp (not_or.mp hstop).1
        have hsm3 : sm newPos = false := by
          cases hb : sm newPos
          · rfl
          · exact absurd hb (not_or.mp hstop).2
        have hbnd : 0 ≤ newPos ∧ newPos < (s.tiles.length : Int) :=
          (inBoundsLen_iff _ _).mp hin3
        have hvs : ValidSem s.tiles.length
            (s.players.set pi ({ s.players.getD pi default with Position := newPos })) := by
          refine ValidSem_set hv hbnd ?_
          intro j hj hjpi heq
          by_contra h0
          have hjlen : j < ps0.length := by rw [← ho.1]; exact hj
          have hmem : s.players.getD j default ∈ ps0 := by
            rw [ho.2 j hjpi]
            rw [List.getD_eq_getElem _ _ hjlen]
            exact List.getElem_mem hjlen
          have hnz : (s.players.getD j default).Position ≠ 0 := by
            intro hz
            exact h0 (hz ▸ heq.symm)
          exact hsm newPos hsm3 _ hmem hnz heq
        obtain ⟨ps1, heq1, hv1, ho1⟩ :=
          ih ({ s with players := s.players.set pi ({ s.players.getD pi default with Position := newPos }) }) hvs (OthersEq_set _ ho)
        exact ⟨ps1, heq1, hv1, ho1⟩
    · rw [if_pos hin]
      exact ⟨s.players, rfl, hv, ho⟩

theorem move_ok (s : StateCore) (pi : Nat) (spaces : Int)
    (h : validate s = true) :
    ∃ ps1, move s pi spaces = .ok { s with players := ps1 } ∧
      validate { s with players := ps1 } = true ∧
      OthersEq pi s.players ps1 := by
  have hsm : ∀ q : Int,
      (s.players.any (fun pl => pl.Position != 0 && pl.Position == q)) = false →
      ∀ pl ∈ s.players, pl.Position ≠ 0 → pl.Position ≠ q := by
    intro q hq pl hpl hz hcontra
    have := List.any_eq_false.mp hq pl hpl
    apply this
    rw [hcontra] at hz
    simp [bne_iff_ne, hz, hcontra]
  obtain ⟨ps1, heq1, hv1, ho1⟩ := moveLoop_spec pi
    (fun q => s.players.any (fun pl => pl.Position != 0 && pl.Position == q))
    (if (s.players.getD pi default).TurnedAround then -1 else 1)
    s.players hsm spaces.natAbs s ((validate_iff s).mp h) (OthersEq_refl pi s.players)
  refine ⟨ps1, ?_, ?_, ho1⟩
  · rw [move, if_neg (by simp [h])]
    exact congrArg Except.ok heq1
  · rw [validate_iff]
    exact hv1

theorem set_getD_self {α : Type} : ∀ (l : List α) (i : Nat) (d : α),
    l.set i (l.getD i d) = l
  | [], _, _ => rfl
  | _ :: _, 0, _ => by simp [List.getD]
  | a :: t, n + 1, d => by
    simp only [List.getD_cons_succ, List.set_cons_succ]
    rw [set_getD_self t n d]

theorem validateGen_congr (len : Nat) :
    ∀ (ps ps' : List Player) (pm : List Int),
      ps.map (fun p => p.Position) = ps'.map (fun p => p.Position) →
      validateGen len ps pm = validateGen len ps' pm := by
  intro ps
  induction ps with
  | nil =>
    intro ps' pm h
    cases ps' with
    | nil => rfl
    | cons q qs => simp at h
  | cons p rest ih =>
    intro ps' pm h
    cases ps' with
    | nil => simp at h
    | cons q qs =>
      simp only [List.map_cons, List.cons.injEq] at h
      obtain ⟨h1, h2⟩ := h
      rw [validateGen, validateGen, h1]
      split_ifs <;>
        first
          | rfl
          | exact ih qs pm h2
          | exact ih qs (q.Position :: pm) h2

theorem map_pos_set (ps : List Player) (pi : Nat) (p1 : Player)
    (hpos : p1.Position = (ps.getD pi default).Position) :
    (ps.set pi p1).map (fun p => p.Position) = ps.map (fun p => p.Position) := by
  rw [List.map_set]
  by_cases hlt : pi < ps.length
  · have h2 : p1.Position =
        (ps.map (fun p => p.Position)).getD pi ((default : Player).Position) := by
      rw [getD_map_lt (fun p => p.Position) ps pi hlt _ default]
      exact hpos
    rw [h2, set_getD_self]
  · rw [List.set_eq_of_length_le (by simpa using Nat.le_of_not_lt hlt)]

theorem validate_same_shape {s : StateCore} {ts : List Tile} {pi : Nat}
    {p1 : Player} (hlen : ts.length = s.tiles.length)
    (hpos : p1.Position = (s.players.getD pi default).Position)
    (h : validate s = true) :
    validate { s with players := s.players.set pi p1, tiles := ts } = true := by
  show validateGen ts.length (s.players.set pi p1) [] = true
  rw [hlen, validateGen_congr s.tiles.length (s.players.set pi p1) s.players []
    (map_pos_set s.players pi p1 hpos)]
  exact h

theorem pickup_ok (s : StateCore) (hv : validate s = true)
    (ht : (tileAt s ((s.players.getD s.curPlayer default).Position)).ttype
      = TileType.treasure) :
    ∃ s1, pickup s s.curPlayer = .ok s1 ∧ validate s1 = true := by
  rw [pickup, if_neg (by simp [hv]),
    if_neg (by simp only [not_not, beq_iff_eq]; exact ht)]
  exact ⟨_, rfl, validate_same_shape (by simp) rfl hv⟩

theorem drop_ok (s : StateCore) (i : Nat) (hv : validate s = true)
    (hlt : i < (s.players.getD s.curPlayer default).HeldTreasure.length)
    (ht : (tileAt s ((s.players.getD s.curPlayer default).Position)).ttype
      = TileType.empty) :
    ∃ s1, drop s s.curPlayer (i : Int) = .ok s1 ∧ validate s1 = true := by
  rw [drop, if_neg (by simp [hv]), if_neg (by omega),
    if_neg (by simp only [not_not, beq_iff_eq]; exact ht)]
  exact ⟨_, rfl, validate_same_shape (by simp) rfl hv⟩

theorem endRound_ok (s : StateCore) (hv : validate s = true) :
    ∃ s1, endRound s = .ok s1 := by
  rw [endRound, if_neg (by simp [hv])]
  exact ⟨_, rfl⟩

theorem toNextTurn_none (s : StateCore) (hv : validate s = true) :
    (toNextTurn s).fst = none := by
  rw [toNextTurn]
  obtain ⟨s1, hs1⟩ := endRound_ok ({ s with curPlayer := nextActiveGo s.players s.curPlayer s.players.length ((s.curPlayer + 1) % s.players.length) }) hv
  split
  · rw [hs1]
    split
    · simp_all
    · split <;> rfl
  · split <;> rfl

theorem WF_validate {s : StateCore} (h : WF s = true) : validate s = true := by
  simp only [WF, Bool.and_eq_true] at h
  exact h.1.1

theorem WF_stage_pickup {s : StateCore} (h : WF s = true)
    (hst : s.stage = Stage.PickUp) :
    (tileAt s ((s.players.getD s.curPlayer default).Position)).ttype
      = TileType.treasure := by
  simp only [WF, hst, Bool.and_eq_true] at h
  exact beq_iff_eq.mp h.2

theorem WF_stage_drop {s : StateCore} (h : WF s = true)
    (hst : s.stage = Stage.Drop) :
    (tileAt s ((s.players.getD s.curPlayer default).Position)).ttype
      = TileType.empty := by
  simp only [WF, hst, Bool.and_eq_true] at h
  exact beq_iff_eq.mp h.2

theorem do_ok (s : StateCore) (d : Decision) (hwf : WF s = true)
    (hmem : d ∈ ValidDecisions s) : (DoCore s d).fst = none := by
  have hv : validate s = true := WF_validate hwf
  rw [DoCore, if_neg (not_not_intro hmem)]
  obtain ⟨air, round, stage, cur, players, tiles⟩ := s
  cases stage with
  | Roll =>
    obtain ⟨ps1, heq1, hv1, _⟩ := move_ok
      ({ air := if air - ((players.getD cur default).HeldTreasure.length : Int) < 0 then 0 else air - ((players.getD cur default).HeldTreasure.length : Int), round := round, stage := Stage.Roll, curPlayer := cur, players := players, tiles := tiles })
      cur
      (if d.value - ((players.getD cur default).HeldTreasure.length : Int) < 0 then 0 else d.value - ((players.getD cur default).HeldTreasure.length : Int))
      hv
    simp only [heq1]
    split_ifs <;> first | rfl | exact toNextTurn_none _ hv1
  | PickUp =>
    simp only [ValidDecisions, List.mem_cons, List.not_mem_nil, or_false]
      at hmem
    rcases hmem with rfl | rfl
    · obtain ⟨s1, heqp, hvp⟩ := pickup_ok _ hv (WF_stage_pickup hwf rfl)
      simp only [Decision.pickUpYes, if_pos, heqp]
      exact toNextTurn_none s1 hvp
    · simp only [Decision.pickUpYes, Bool.false_eq_true, if_false]
      exact toNextTurn_none _ hv
  | Drop =>
    simp only [ValidDecisions, List.mem_cons] at hmem
    rcases hmem with rfl | hmem2
    · simp only [Decision.dropYes, Bool.false_eq_true, if_false]
      exact toNextTurn_none _ hv
    · obtain ⟨i, hir, rfl⟩ := List.mem_map.mp hmem2
      have hi : i < (players.getD cur default).HeldTreasure.length :=
        List.mem_range.mp hir
      obtain ⟨s1, heqd, hvd⟩ := drop_ok _ i hv hi (WF_stage_drop hwf rfl)
      simp only [Decision.dropYes, Decision.value, if_pos, heqd]
      exact toNextTurn_none s1 hvd
  | Turn => rfl
  | EndOfGame =>
    simp only [ValidDecisions, List.not_mem_nil] at hmem

/-- C1: refutation of the round-trip law in the program. At the
reachable-shaped Drop-stage state dropCore3 the decision Drop(1, yes)
is legal and Do succeeds, but the snapshot Do pushed shares its
heldTreasure backing array with the live player, and drop's in-place
append rewrites it: the snapshot re-reads [S1, S1, S2] in place of the
pre-mutation [S1, S2, S3], so the state Undo restores differs from the
original. The Lean Do stores the snapshot as an immutable value, so the
divergence is evaluated on snapshotHeldAfterDrop, the shared-array
model of what the snapshot's slice reads after the append. -/
theorem do_undo_unsound :
    WF dropCore3 = true ∧
    Decision.Drop 1 true ∈ ValidDecisions dropCore3 ∧
    (DoCore dropCore3 (Decision.Drop 1 true)).fst = none ∧
    snapshotHeldAfterDrop
        (dropCore3.players.getD 0 default).HeldTreasure 1
      = [[⟨TreasureType.One, 1⟩], [⟨TreasureType.One, 1⟩],
         [⟨TreasureType.Two, 4⟩]] ∧
    snapshotHeldAfterDrop
        (dropCore3.players.getD 0 default).HeldTreasure 1
      ≠ (dropCore3.players.getD 0 default).HeldTreasure := by
  decide

/-- C2: concrete evaluation of the drop bug. The current player stands on
the empty tile 1 holding exactly one stack; Do with the legal decision
Drop(0, yes) succeeds and turns the tile into a Treasure tile holding
that stack, but the player's heldTreasure still contains the stack
(`append(held[:0], held[:1]...)` re-appends it) instead of the
claimed removal `eraseIdx 0 = []`. -/
theorem drop_keeps_stack :
    (Do dropSS (Decision.Drop 0 true)).fst = none ∧
    ((Do dropSS (Decision.Drop 0 true)).snd.core.players.getD 0 default).HeldTreasure
      = [[⟨TreasureType.Two, 5⟩]] ∧
    tileAt ((Do dropSS (Decision.Drop 0 true)).snd.core) 1
      = ⟨TileType.treasure, some [⟨TreasureType.Two, 5⟩]⟩ ∧
    ((Do dropSS (Decision.Drop 0 true)).snd.core.players.getD 0 default).HeldTreasure
      ≠ (dropCore.players.getD 0 default).HeldTreasure.eraseIdx 0 := by
  refine ⟨by decide, by decide, by decide, by decide⟩

/-- C3 (counterexample): Do with an illegal decision (Turn at the Roll
stage) returns an error, yet the undo history has grown — the snapshot
is pushed before the legality check. -/
theorem do_invalid_grows_history :
    (Do mcSS (Decision.Turn true)).fst.isSome = true ∧
    (Do mcSS (Decision.Turn true)).snd.history ≠ mcSS.history := by
  refine ⟨by decide, by decide⟩

/-- C3 (amended): on a well-formed state, Do errors exactly on decisions
outside the legal set; an erroring Do leaves every component except the
undo history unchanged, yet the history has still gained one entry — a
copy of the pre-call core, exact on this path because nothing is mutated
after the snapshot push — since the push precedes the legality check.
(No history statement is made for the success path: there the pushed Go
snapshot need not remain equal to the pre-mutation state, see
do_undo_unsound.) -/
theorem do_iff (ss : standardState) (h : WF ss.core = true) (d : Decision) :
    ((Do ss d).fst = none ↔ d ∈ ValidDecisions ss.core) ∧
    ((Do ss d).fst ≠ none →
      (Do ss d).snd.core = ss.core ∧
      (Do ss d).snd.history = ss.history ++ [ss.core]) := by
  refine ⟨⟨?_, ?_⟩, ?_⟩
  · intro hnone
    by_contra hmem
    have hsome : (DoCore ss.core d).fst = some ("attempted to do invalid decision") := by
      rw [DoCore, if_pos hmem]
    rw [show (Do ss d).fst = (DoCore ss.core d).fst from rfl, hsome] at hnone
    exact Option.noConfusion hnone
  · intro hmem
    exact do_ok ss.core d h hmem
  · intro hne
    refine ⟨?_, rfl⟩
    by_cases hmem : d ∈ ValidDecisions ss.core
    · exact absurd (do_ok ss.core d h hmem) hne
    · show (DoCore ss.core d).snd = ss.core
      rw [DoCore, if_pos hmem]

/-- Witness for do_iff at a concrete well-formed state and an illegal
decision (Turn at the Roll stage), exercising the error branch. -/
theorem do_iff_witness :
    WF mcSS.core = true ∧
    (((Do mcSS (Decision.Turn true)).fst = none ↔
        Decision.Turn true ∈ ValidDecisions mcSS.core) ∧
      ((Do mcSS (Decision.Turn true)).fst ≠ none →
        (Do mcSS (Decision.Turn true)).snd.core = mcSS.core ∧
        (Do mcSS (Decision.Turn true)).snd.history = mcSS.history ++ [mcSS.core])) :=
  ⟨by decide, do_iff mcSS (by decide) (Decision.Turn true)⟩

/-- C5: a legal Roll decision with dice value v floors air at
max(0, air − held), runs the move resolution with max(0, v − held)
spaces, and then enters PickUp on a treasure tile, Drop on an empty tile
with at least one held stack, and the advance-turn transition otherwise,
succeeding throughout and pushing exactly one snapshot. -/
theorem roll_spec (ss : standardState) (hwf : WF ss.core = true)
    (hst : ss.core.stage = Stage.Roll) (v : Int) (h2 : 2 ≤ v) (h6 : v ≤ 6) :
    C5Concl ss v := by
  obtain ⟨⟨air, round, stage, cur, players, tiles⟩, hist⟩ := ss
  have hst' : stage = Stage.Roll := hst
  subst hst'
  have hv : validate (⟨air, round, Stage.Roll, cur, players, tiles⟩ : StateCore) = true :=
    WF_validate hwf
  have hmem : Decision.Roll v ∈
      ValidDecisions (⟨air, round, Stage.Roll, cur, players, tiles⟩ : StateCore) := by
    have hca : v = 2 ∨ v = 3 ∨ v = 4 ∨ v = 5 ∨ v = 6 := by omega
    rcases hca with rfl | rfl | rfl | rfl | rfl <;>
      simp [ValidDecisions, List.range']
  have e_air : max (air - ((players.getD cur default).HeldTreasure.length : Int)) 0
      = (if air - ((players.getD cur default).HeldTreasure.length : Int) < 0 then 0 else air - ((players.getD cur default).HeldTreasure.length : Int)) := by
    split_ifs with hc
    · exact max_eq_right hc.le
    · exact max_eq_left (not_lt.mp hc)
  have e_moves : max (v - ((players.getD cur default).HeldTreasure.length : Int)) 0
      = (if v - ((players.getD cur default).HeldTreasure.length : Int) < 0 then 0 else v - ((players.getD cur default).HeldTreasure.length : Int)) := by
    split_ifs with hc
    · exact max_eq_right hc.le
    · exact max_eq_left (not_lt.mp hc)
  simp only [C5Concl]
  rw [e_air, e_moves]
  obtain ⟨ps1, heqm, hvm, _⟩ := move_ok
    ({ air := if air - ((players.getD cur default).HeldTreasure.length : Int) < 0 then 0 else air - ((players.getD cur default).HeldTreasure.length : Int), round := round, stage := Stage.Roll, curPlayer := cur, players := players, tiles := tiles })
    cur
    (if v - ((players.getD cur default).HeldTreasure.length : Int) < 0 then 0 else v - ((players.getD cur default).HeldTreasure.length : Int))
    hv
  simp only [Do]
  rw [DoCore, if_neg (not_not_intro hmem)]
  simp only [Decision.value, heqm]
  split_ifs <;> first | rfl | exact Prod.ext (toNextTurn_none _ hvm) rfl

/-- Witness for roll_spec at a concrete well-formed Roll-stage state. -/
theorem roll_spec_witness :
    WF mcSS.core = true ∧ mcSS.core.stage = Stage.Roll ∧
    (2 : Int) ≤ 3 ∧ (3 : Int) ≤ 6 ∧ C5Concl mcSS 3 :=
  ⟨by decide, rfl, by norm_num, by norm_num,
    roll_spec mcSS (by decide) rfl 3 (by norm_num) (by norm_num)⟩

/-- C10: round-end resolution always hands the next turn to player 0,
whichever player's turn triggered it. -/
theorem endRound_curPlayer (s : StateCore) (hv : validate s = true) :
    (endRound s).map (fun s1 => s1.curPlayer) = .ok 0 := by
  rw [endRound, if_neg (by simp [hv])]
  rfl

/-- Witness for endRound_curPlayer: a round ended by player 1 still
resets the current player to 0. -/
theorem endRound_curPlayer_witness :
    (validate erCore = true ∧ erCore.curPlayer = 1) ∧
    (endRound erCore).map (fun s1 => s1.curPlayer) = .ok 0 :=
  ⟨⟨by decide, rfl⟩, endRound_curPlayer erCore (by decide)⟩

theorem stackGo_flatten (size : Nat) :
    ∀ (tl : List Treasure) (cur : TreasureStack),
      (stackGo size tl cur).flatten = cur ++ tl := by
  intro tl
  induction tl with
  | nil =>
    intro cur
    rw [stackGo]
    split_ifs with h
    · simp
    · have hc : cur = [] := List.length_eq_zero.mp (by omega)
      subst hc
      simp
  | cons t rest ih =>
    intro cur
    rw [stackGo]
    split_ifs with h
    · simp [ih]
    · rw [ih]
      simp

theorem stackGo_mem_len (size : Nat) (hsz : 0 < size) :
    ∀ (tl : List Treasure) (cur : TreasureStack), cur.length < size →
      ∀ ts ∈ stackGo size tl cur, 0 < ts.length ∧ ts.length ≤ size := by
  intro tl
  induction tl with
  | nil =>
    intro cur hcur ts hts
    rw [stackGo] at hts
    split_ifs at hts with h
    · have : ts = cur := by simpa using hts
      subst this
      exact ⟨h, hcur.le⟩
    · simp at hts
  | cons t rest ih =>
    intro cur hcur ts hts
    rw [stackGo] at hts
    split_ifs at hts with h
    · rcases List.mem_cons.mp hts with rfl | hts2
      · refine ⟨by simp, ?_⟩
        simp only [List.length_append, List.length_singleton]
        omega
      · exact ih [] (by simpa using hsz) ts hts2
    · refine ih (cur ++ [t]) ?_ ts hts
      simp only [List.length_append, List.length_singleton] at h ⊢
      omega

theorem stackGo_dropLast_len (size : Nat) (hsz : 0 < size) :
    ∀ (tl : List Treasure) (cur : TreasureStack), cur.length < size →
      ∀ ts ∈ (stackGo size tl cur).dropLast, ts.length = size := by
  intro tl
  induction tl with
  | nil =>
    intro cur hcur ts hts
    rw [stackGo] at hts
    split_ifs at hts with h
    · simp at hts
    · simp at hts
  | cons t rest ih =>
    intro cur hcur ts hts
    rw [stackGo] at hts
    split_ifs at hts with h
    · cases hL : stackGo size rest [] with
      | nil => rw [hL] at hts; simp at hts
      | cons x xs =>
        rw [hL, List.dropLast_cons₂] at hts
        rcases List.mem_cons.mp hts with rfl | hts2
        · simp only [List.length_append, List.length_singleton] at h ⊢
          omega
        · have hrec := ih [] (by simpa using hsz)
          rw [hL] at hrec
          exact hrec ts hts2
    · refine ih (cur ++ [t]) ?_ ts hts
      simp only [List.length_append, List.length_singleton] at h ⊢
      omega

theorem pool_foldl :
    ∀ (ps : List Player) (acc : List Treasure),
      ps.foldl (fun acc p =>
          if p.Position == 0 then acc else acc ++ p.HeldTreasure.flatten) acc
        = acc ++ ((ps.filter (fun p => p.Position != 0)).map
            (fun p => p.HeldTreasure.flatten)).flatten := by
  intro ps
  induction ps with
  | nil => intro acc; simp
  | cons p rest ih =>
    intro acc
    rw [List.foldl_cons]
    by_cases h : p.Position = 0
    · rw [if_pos (by simpa using h), ih, List.filter_cons]
      simp [h]
    · rw [if_neg (by simpa using h), ih, List.filter_cons]
      simp [h, List.append_assoc, bne_iff_ne]

/-- C4: after round-end resolution every player sits on the submarine
facing down with empty hands, survivors bank their held stacks, the
round advances, air refills to 25, and the board is the empty-compacted
original followed by the dead players' pooled held treasure re-packed
into stacks of three with one shorter final stack keeping any
remainder. -/
theorem endRound_spec (s : StateCore) (hv : validate s = true) : C4Concl s := by
  have heq : endRound s = .ok
      ({ s with
        players := s.players.map (fun p =>
          { p with
            Position := 0, TurnedAround := false, HeldTreasure := [],
            StashedTreasure :=
              if p.Position == 0 then p.StashedTreasure ++ p.HeldTreasure
              else p.StashedTreasure }),
        tiles := s.tiles.filter (fun t => t.ttype != TileType.empty)
          ++ (stack (s.players.foldl (fun acc p => if p.Position == 0 then acc else acc ++ p.HeldTreasure.flatten) []) 3).map (fun ts => ⟨TileType.treasure, some ts⟩),
        round := s.round + 1, air := 25, curPlayer := 0 }) := by
    rw [endRound, if_neg (by simp [hv])]
  have htl : s.players.foldl (fun acc p =>
        if p.Position == 0 then acc else acc ++ p.HeldTreasure.flatten) []
      = ((s.players.filter (fun p => p.Position != 0)).map
          (fun p => p.HeldTreasure.flatten)).flatten := by
    simpa using pool_foldl s.players []
  simp only [C4Concl, heq]
  refine ⟨by simp, by simp, by simp, ?_, ?_, ?_, ?_, ?_⟩
  · intro i hi
    have hsome : s.players[i]? = some (s.players[i]) := List.getElem?_eq_getElem hi
    refine ⟨by simp [hsome], by simp [hsome], by simp [hsome], ?_⟩
    by_cases h : s.players[i].Position = 0 <;>
      simp [List.getD_eq_getD_get?, hsome, h]
  · rw [htl]
  · simpa [stack] using stackGo_flatten 3
      (((s.players.filter (fun p => p.Position != 0)).map
        (fun p => p.HeldTreasure.flatten)).flatten) []
  · exact fun ts hts => stackGo_dropLast_len 3 (by norm_num) _ [] (by simp) ts hts
  · exact fun ts hts => stackGo_mem_len 3 (by norm_num) _ [] (by simp) ts hts

/-- Witness for endRound_spec at a concrete two-player round end where
player 0 survived and player 1 was stranded holding three treasures. -/
theorem endRound_spec_witness : validate erCore = true ∧ C4Concl erCore :=
  ⟨by decide, endRound_spec erCore (by decide)⟩

theorem hop_of_sm_false (inB sm : Int → Bool) (skip : Int) (fuel : Nat)
    (pos : Int) (h : sm pos = false) : hop inB sm skip fuel pos = pos := by
  cases fuel with
  | zero => rfl
  | succ n =>
    rw [hop]
    simp [h]

theorem StateMoveLoop_solo (sm : Int → Bool) (skip : Int) :
    ∀ (n : Nat) (gs : State) (p : Player),
      gs.Players = [p] →
      (∀ k : Nat, sm (p.Position + skip * (k + 1)) = false) →
      StateMoveLoop 0 sm skip n gs
        = { gs with Players := [{ p with Position := p.Position + skip * n }] } := by
  intro n
  induction n with
  | zero =>
    intro gs p hgs hsm
    rw [StateMoveLoop]
    have h1 : p.Position + skip * ((0 : Nat) : Int) = p.Position := by
      push_cast
      ring
    rw [h1]
    have h2 : ({ p with Position := p.Position } : Player) = p := rfl
    rw [h2, ← hgs]
  | succ n ih =>
    intro gs p hgs hsm
    rw [StateMoveLoop]
    have hget : gs.Players.getD 0 default = p := by rw [hgs]; rfl
    rw [hget]
    have hsm1 : sm (p.Position + skip) = false := by
      have h0 := hsm 0
      simpa using h0
    rw [hop_of_sm_false _ _ _ _ _ hsm1, if_neg (by simp [hsm1])]
    have hset : gs.Players.set 0 ({ p with Position := p.Position + skip })
        = [{ p with Position := p.Position + skip }] := by
      rw [hgs]
      rfl
    rw [hset]
    have hsm2 : ∀ k : Nat,
        sm (({ p with Position := p.Position + skip } : Player).Position
          + skip * (k + 1)) = false := by
      intro k
      have hk := hsm (k + 1)
      have harith : (({ p with Position := p.Position + skip } : Player).Position)
          + skip * ((k : Int) + 1) = p.Position + skip * (((k + 1 : Nat) : Int) + 1) := by
        show p.Position + skip + skip * ((k : Int) + 1)
          = p.Position + skip * (((k + 1 : Nat) : Int) + 1)
        push_cast
        ring
      rw [harith]
      exact hk
    rw [ih ({ gs with Players := [{ p with Position := p.Position + skip }] })
      ({ p with Position := p.Position + skip }) rfl hsm2]
    have h3 : (({ p with Position := p.Position + skip } : Player).Position)
        + skip * ((n : Nat) : Int) = p.Position + skip * (((n + 1 : Nat) : Int)) := by
      show p.Position + skip + skip * ((n : Nat) : Int)
        = p.Position + skip * (((n + 1 : Nat) : Int))
      push_cast
      ring
    rw [h3]

/-- C6: concrete refutation on State.Move from state.go. With a single
player on the standard-size 33-tile board, moving 1000 spaces forward
from the submarine leaves the player at position 1000 — far off the
board — instead of stopping at the last tile (32), and moving 1000
spaces from tile 2 turned-around leaves them at -998 instead of 0; the
loop never re-checks bounds before assigning the position, contradicting
its own doc comment and the repository's TestMove cases ("stops at the
end", "stops at start"). -/
theorem stateMove_out_of_bounds :
    ((State.Move gsForward 0 1000).map
      (fun gs => (gs.Players.getD 0 default).Position)).toOption = some 1000 ∧
    gsForward.Tiles.length = 33 ∧
    ((State.Move gsBackward 0 1000).map
      (fun gs => (gs.Players.getD 0 default).Position)).toOption = some (-998) := by
  refine ⟨?_, by decide, ?_⟩
  · rw [State.Move, if_neg (by decide)]
    show (Except.map (fun gs => (gs.Players.getD 0 default).Position)
      (Except.ok (StateMoveLoop 0
        (fun q => gsForward.Players.any (fun pl => pl.Position != 0 && pl.Position == q))
        1 1000 gsForward))).toOption = some 1000
    rw [StateMoveLoop_solo _ 1 1000 gsForward
      ({ Position := 0, TurnedAround := false, HeldTreasure := [], StashedTreasure := [] })
      rfl (fun k => rfl)]
    decide
  · rw [State.Move, if_neg (by decide)]
    show (Except.map (fun gs => (gs.Players.getD 0 default).Position)
      (Except.ok (StateMoveLoop 0
        (fun q => gsBackward.Players.any (fun pl => pl.Position != 0 && pl.Position == q))
        (-1) 1000 gsBackward))).toOption = some (-998)
    have hsmb : ∀ k : Nat,
        gsBackward.Players.any (fun pl => pl.Position != 0 && pl.Position
          == ((2 : Int) + (-1) * ((k : Int) + 1))) = false := by
      intro k
      simp only [gsBackward, List.any_cons, List.any_nil, Bool.or_false]
      simp only [bne_iff_ne, beq_iff_eq, Bool.and_eq_false_iff, decide_eq_false_iff_not]
      simp
      omega
    rw [StateMoveLoop_solo _ (-1) 1000 gsBackward
      ({ Position := 2, TurnedAround := true, HeldTreasure := [], StashedTreasure := [] })
      rfl (fun k => hsmb k)]
    decide

/-- Helper: a successful montecarlo playout always ends in a state whose
stage is EndOfGame, and no decision along its path is taken in an
EndOfGame state. -/
theorem montecarlo_stops (player : Nat) :
    ∀ (fuel : Nat) (cs : List Nat) (ss : standardState) (r : McResult),
      montecarlo player fuel cs ss = .ok r →
      r.final.stage = Stage.EndOfGame ∧
        ∀ sd ∈ r.steps, sd.fst.stage ≠ Stage.EndOfGame := by
  intro fuel
  induction fuel with
  | zero =>
    intro cs ss r h
    simp [montecarlo] at h
  | succ n ih =>
    intro cs ss r h
    simp only [montecarlo] at h
    by_cases hst : ss.core.stage = Stage.EndOfGame
    · rw [if_pos (by simp [hst])] at h
      obtain rfl := ((Except.ok.injEq _ _).mp h).symm
      exact ⟨hst, by intro sd hsd; simp at hsd⟩
    · rw [if_neg (by simp [hst])] at h
      split at h
      · exact absurd h (by simp)
      · rename_i ss1 heq
        split at h
        · exact absurd h (by simp)
        · rename_i r1 hmc
          obtain rfl := ((Except.ok.injEq _ _).mp h).symm
          obtain ⟨hfin, hsteps⟩ := ih cs.tail ss1 r1 hmc
          refine ⟨hfin, ?_⟩
          intro sd hsd
          rcases List.mem_cons.mp hsd with hhd | htl
          · rw [hhd]
            exact hst
          · exact hsteps sd htl

/-- C7: counterexample. A montecarlo playout run during Estimate from
mcSS — whose round counter is 1 — visits states in rounds beyond round
1: the rollout loop only stops at StageEndOfGame and ignores the round
horizon entirely. -/
theorem mc_crosses_round : mcVisitsRoundAbove 0 20 mcChoices mcSS 1 = true := by
  decide

/-- C7 (amended): every successful Monte Carlo playout stops exactly at
the end of the game — its terminal state has stage EndOfGame and no
decision along the path is taken in an EndOfGame state. The round
horizon does not bound the playout; it only short-circuits Estimate when
the starting state itself is already at or past the horizon. -/
theorem mc_stops_only_at_game_end (player fuel : Nat) (cs : List Nat)
    (ss : standardState) : stopsAtEnd player fuel cs ss = true := by
  rw [stopsAtEnd]
  cases hmc : montecarlo player fuel cs ss with
  | error e => rfl
  | ok r =>
    obtain ⟨h1, h2⟩ := montecarlo_stops player fuel cs ss r hmc
    simp only [h1, decide_True, Bool.true_and, List.all_eq_true, decide_eq_true_eq]
    exact fun sd hsd => h2 sd hsd

/-- Helper: the probability a successful montecarlo playout returns is
the product of its per-step tags: the dice probability at Roll stages,
and 1 over the number of legal decisions at every other stage. -/
theorem montecarlo_prob (player : Nat) :
    ∀ (fuel : Nat) (cs : List Nat) (ss : standardState) (r : McResult),
      montecarlo player fuel cs ss = .ok r → r.prob = pathProb r.steps := by
  intro fuel
  induction fuel with
  | zero =>
    intro cs ss r h
    simp [montecarlo] at h
  | succ n ih =>
    intro cs ss r h
    simp only [montecarlo] at h
    by_cases hst : ss.core.stage = Stage.EndOfGame
    · rw [if_pos (by simp [hst])] at h
      obtain rfl := ((Except.ok.injEq _ _).mp h).symm
      rfl
    · rw [if_neg (by simp [hst])] at h
      split at h
      · exact absurd h (by simp)
      · rename_i ss1 heq
        split at h
        · exact absurd h (by simp)
        · rename_i r1 hmc
          obtain rfl := ((Except.ok.injEq _ _).mp h).symm
          have hih := ih cs.tail ss1 r1 hmc
          show _ = pathProb _
          rw [pathProb, List.map_cons, List.prod_cons, ← pathProb, ← hih]
          rfl

/-- C8: counterexample. A montecarlo playout from mcSS returns a total
probability different from the product of the dice probabilities of its
Roll decisions alone: decisions at non-Roll stages are tagged with 1
over the number of legal decisions, not with 1. -/
theorem mc_prob_not_dice_only : mcProbNotDiceOnly 0 20 mcChoices mcSS = true := by
  with_unfolding_all decide

/-- C8 (amended): the probability a successful playout returns is the
product of the per-step tags along its path, where the tag is the dice
probability at Roll stages and 1 over the number of legal decisions at
every other stage. -/
theorem mc_prob_is_tag_product (player fuel : Nat) (cs : List Nat)
    (ss : standardState) : probMatchesTags player fuel cs ss = true := by
  rw [probMatchesTags]
  cases hmc : montecarlo player fuel cs ss with
  | error e => rfl
  | ok r =>
    simpa using montecarlo_prob player fuel cs ss r hmc

/-- C9: counterexample. On the ended game endSS the player's stashed
treasure is one rank-1 treasure of per-instance value 3, yet Estimate
returns 3/2 — the fixed expected value of rank 1 — not the sum of the
stashed per-instance values. -/
theorem estimate_not_value_sum :
    (Estimate 1 [] endSS 0 100 4).toOption = some (3 / 2) ∧
    ((stashedValueSum endCore 0 : Int) : ℚ) ≠ 3 / 2 := by
  with_unfolding_all decide

/-- C9 (amended): for every state at or past the round horizon or whose
stage is EndOfGame, Estimate returns rawUtility — the sum of the fixed
rank expected values (3/2, 11/2, 19/2, 27/2) of the player's stashed
treasures — for every rollout count. -/
theorem estimate_ended (fuel : Nat) (cs : List Nat) (ss : standardState)
    (player iterations : Nat) (lastRound : Int)
    (h : lastRound ≤ ss.core.round ∨ ss.core.stage = Stage.EndOfGame) :
    Estimate fuel cs ss player iterations lastRound
      = .ok (rawUtility ss.core player) := by
  have hc : (decide (lastRound ≤ ss.core.round)
      || (ss.core.stage == Stage.EndOfGame)) = true := by
    rcases h with h | h
    · simp [h]
    · simp [h]
  rw [Estimate, if_pos hc]

/-- Witness for estimate_ended at the concrete ended state endSS. -/
theorem estimate_ended_witness :
    ((4 : Int) ≤ endCore.round ∨ endCore.stage = Stage.EndOfGame) ∧
    Estimate 1 [] endSS 0 100 4 = .ok (rawUtility endCore 0) :=
  ⟨Or.inr rfl, estimate_ended 1 [] endSS 0 100 4 (Or.inr rfl)⟩
